import Mathlib

/-!
Verification of the stone-prover-sdk core: the FRI parameter derivation
(`fri.rs`), the bootloader task assembly and the execution-artifact
extraction (`cairo_vm.rs`), shallowly embedded in Lean 4.

Machine integers (`u32`) are modelled as `Nat`; the subtractions that can
underflow in the source (a panic in debug builds, a wrap in release builds)
are modelled by `checkedSub`, returning `none` exactly when the source
faults.  Fallible computations return `Option`/`Except`.
-/

namespace StoneSdk

/-- Checked subtraction on `Nat`, modelling Rust `u32` subtraction: `none`
exactly when the subtraction would underflow (a panic in debug builds). -/
def checkedSub (a b : Nat) : Option Nat :=
  if b ≤ a then some (a - b) else none

/-- Fuel-based floor-log2 on `Nat`; with fuel at least `n` this computes
`u32::ilog2`, i.e. the greatest `k` with `2 ^ k ≤ n` (for `1 ≤ n`). -/
def ilog2Aux : Nat → Nat → Nat
  | 0, _ => 0
  | fuel + 1, n => if 2 ≤ n then ilog2Aux fuel (n / 2) + 1 else 0

/-- Models `u32::ilog2` (floor of log2); meaningful for `1 ≤ n`.  The source
panics at `n = 0`; that case is excluded by `ceil_log2`'s zero guard. -/
def ilog2 (n : Nat) : Nat := ilog2Aux n n

/-- Models `u32::is_power_of_two`: `true` exactly on the powers of two. -/
def is_power_of_two (x : Nat) : Bool := x != 0 && 2 ^ ilog2 x == x

/-- Embeds `ceil_log2` from `fri.rs`: `x.ilog2()`, incremented by one unless
`x` is a power of two.  `x.ilog2()` panics at `x = 0`, modelled by `none`. -/
def ceil_log2 (x : Nat) : Option Nat :=
  if x = 0 then none
  else some (if is_power_of_two x then ilog2 x else ilog2 x + 1)

/-- Constant `DEFAULT_LAST_LAYER_DEGREE_BOUND` from `fri.rs`. -/
def DEFAULT_LAST_LAYER_DEGREE_BOUND : Nat := 64

/-- Constant `DEFAULT_N_QUERIES` from `fri.rs`. -/
def DEFAULT_N_QUERIES : Nat := 18

/-- Constant `DEFAULT_PROOF_OF_WORK_BITS` from `fri.rs`. -/
def DEFAULT_PROOF_OF_WORK_BITS : Nat := 24

/-- Embeds `compute_fri_steps` from `fri.rs`.  The `u32` expression
`nb_steps_log + 4 - last_layer_degree_bound_log` is modelled by
`checkedSub`; the division by `max_step_value` panics at zero in Rust,
modelled by the zero guard. -/
def compute_fri_steps (nb_steps_log last_layer_degree_bound_log max_step_value : Nat) :
    Option (List Nat) :=
  if max_step_value = 0 then none
  else
    match checkedSub (nb_steps_log + 4) last_layer_degree_bound_log with
    | none => none
    | some sum_of_fri_steps =>
      let quotient := sum_of_fri_steps / max_step_value
      let remainder := sum_of_fri_steps % max_step_value
      let fri_steps := List.replicate quotient max_step_value
      some (if remainder > 0 then fri_steps ++ [remainder] else fri_steps)

/-- Embeds the `FriParameters` struct from `models.rs`. -/
structure FriParameters where
  fri_step_list : List Nat
  last_layer_degree_bound : Nat
  n_queries : Nat
  proof_of_work_bits : Nat
deriving DecidableEq, Repr

/-- Embeds the `StarkParameters` struct from `models.rs`. -/
structure StarkParameters where
  fri : FriParameters
  log_n_cosets : Int
deriving DecidableEq, Repr

/-- Embeds the `ProverParameters` struct from `models.rs`. -/
structure ProverParameters where
  field : String
  stark : StarkParameters
  use_extension_field : Bool
deriving DecidableEq, Repr

/-- Embeds the `Verifier` enum from `models.rs`. -/
inductive Verifier where
  | Stone
  | L1
deriving DecidableEq, Repr

/-- Embeds `DefaultFriComputer::compute_fri_parameters` from `fri.rs`. -/
def DefaultFriComputer.compute_fri_parameters (nb_steps : Nat) : Option FriParameters :=
  (ceil_log2 nb_steps).bind fun nb_steps_log =>
  (ceil_log2 64).bind fun last_layer_degree_bound_log =>
  (compute_fri_steps nb_steps_log last_layer_degree_bound_log 4).map fun fri_steps =>
  { fri_step_list := fri_steps
    last_layer_degree_bound := 64
    n_queries := DEFAULT_N_QUERIES
    proof_of_work_bits := DEFAULT_PROOF_OF_WORK_BITS }

/-- Embeds `L1VerifierFriComputer::compute_fri_parameters` from `fri.rs`:
start from `last_layer_degree_bound = 64`, halve it (decrementing its log)
when `nb_steps_log - lldb_log` is odd, then prepend a leading `0` to the
steps computed by `compute_fri_steps` with max step `2`. -/
def L1VerifierFriComputer.compute_fri_parameters (nb_steps : Nat) : Option FriParameters :=
  (ceil_log2 nb_steps).bind fun nb_steps_log =>
  (ceil_log2 DEFAULT_LAST_LAYER_DEGREE_BOUND).bind fun lldb_log0 =>
  (checkedSub nb_steps_log lldb_log0).bind fun diff =>
  let pair :=
    if diff % 2 ≠ 0 then (DEFAULT_LAST_LAYER_DEGREE_BOUND / 2, lldb_log0 - 1)
    else (DEFAULT_LAST_LAYER_DEGREE_BOUND, lldb_log0)
  (compute_fri_steps nb_steps_log pair.2 2).map fun steps =>
  { fri_step_list := 0 :: steps
    last_layer_degree_bound := pair.1
    n_queries := DEFAULT_N_QUERIES
    proof_of_work_bits := DEFAULT_PROOF_OF_WORK_BITS }

/-- Embeds `generate_prover_parameters` from `fri.rs`. -/
def generate_prover_parameters (nb_steps : Nat) (verifier : Verifier) :
    Option ProverParameters :=
  (match verifier with
   | Verifier.L1 => L1VerifierFriComputer.compute_fri_parameters nb_steps
   | _ => DefaultFriComputer.compute_fri_parameters nb_steps).map fun fri_parameters =>
  { field := "PrimeField0"
    stark := { fri := fri_parameters, log_n_cosets := 4 }
    use_extension_field := false }

/-- Embeds the `Task` enum from `cairo_bootloader` as used by `cairo_vm.rs`:
a tagged union of a loaded program image or an execution snapshot (PIE).
The program and PIE payload types are abstract. -/
inductive Task (Prog CairoPie : Type) where
  | Program (program : Prog)
  | Pie (pie : CairoPie)

/-- Embeds the `TaskSpec` wrapper from `cairo_bootloader`. -/
structure TaskSpec (Prog CairoPie : Type) where
  task : Task Prog CairoPie

/-- Embeds the `BootloaderTaskError` enum from `cairo_vm.rs`. -/
inductive BootloaderTaskError (ProgErr PieErr : Type) where
  | Program (e : ProgErr)
  | Pie (e : PieErr)

/-- Models `Iterator::collect::<Result<Vec<_>, _>>`: left-to-right, stops at
the first error, otherwise returns the list of all `ok` payloads. -/
def collectResults {ε α : Type} : List (Except ε α) → Except ε (List α)
  | [] => Except.ok []
  | x :: rest =>
    match x with
    | Except.error e => Except.error e
    | Except.ok v =>
      match collectResults rest with
      | Except.error e => Except.error e
      | Except.ok vs => Except.ok (v :: vs)

/-- Embeds `make_bootloader_tasks` from `cairo_vm.rs`.  The external parsers
`Program::from_bytes` (with entry point `"main"`) and `CairoPie::from_bytes`
are abstract parameters; the buffers, payloads and error payloads are
abstract types. -/
def make_bootloader_tasks {Bytes Prog CairoPie ProgErr PieErr : Type}
    (program_from_bytes : Bytes → Except ProgErr Prog)
    (pie_from_bytes : Bytes → Except PieErr CairoPie)
    (programs : List Bytes) (pies : List Bytes) :
    Except (BootloaderTaskError ProgErr PieErr) (List (TaskSpec Prog CairoPie)) :=
  let program_tasks := programs.map fun program_bytes =>
    match program_from_bytes program_bytes with
    | Except.ok program => Except.ok { task := Task.Program program }
    | Except.error e => Except.error (BootloaderTaskError.Program e)
  let cairo_pie_tasks := pies.map fun pie_bytes =>
    match pie_from_bytes pie_bytes with
    | Except.ok pie => Except.ok { task := Task.Pie pie }
    | Except.error e => Except.error (BootloaderTaskError.Pie e)
  collectResults (program_tasks ++ cairo_pie_tasks)

/-- Embeds the `MemWriter` struct from `cairo_vm.rs`: an in-memory byte
buffer implementing the bincode `Writer` trait. -/
structure MemWriter where
  buf : List Nat

/-- Embeds `MemWriter::new`. -/
def MemWriter.new : MemWriter := ⟨[]⟩

/-- Embeds `<MemWriter as Writer>::write` from `cairo_vm.rs`: appends the
bytes to the buffer and always succeeds.  The error type of the `Writer`
trait is abstract. -/
def MemWriter.write {EncErr : Type} (self : MemWriter) (bytes : List Nat) :
    Except EncErr MemWriter :=
  Except.ok ⟨self.buf ++ bytes⟩

/-- Drives a sequence of `Writer::write` calls against a `MemWriter`, as an
encoding primitive does. -/
def writeAll {EncErr : Type} (w : MemWriter) : List (List Nat) → Except EncErr MemWriter
  | [] => Except.ok w
  | chunk :: rest =>
    match (MemWriter.write w chunk : Except EncErr MemWriter) with
    | Except.ok w2 => writeAll w2 rest
    | Except.error e => Except.error e

/-- Models the external `write_encoded_memory` / `write_encoded_trace`
primitives of `cairo_vm`, generic over the encoder: the encoder either
fails on its own or emits a sequence of byte chunks which are pushed
through the writer. -/
def write_encoded {α EncErr : Type} (emit : α → Except EncErr (List (List Nat)))
    (x : α) (w : MemWriter) : Except EncErr MemWriter :=
  match emit x with
  | Except.error e => Except.error e
  | Except.ok chunks => writeAll w chunks

/-- Embeds the variant of `cairo_vm`'s `TraceError` used by
`extract_execution_artifacts`. -/
inductive TraceError where
  | TraceNotEnabled

/-- Embeds the `ExecutionError` enum from `cairo_vm.rs`.  The payloads of
the variants coming from external crates are abstract types. -/
inductive ExecutionError (RunErr PubErr EncErr SerErr : Type) where
  | RunFailed (e : RunErr)
  | GeneratePublicInput (e : PubErr)
  | GenerateTrace (e : TraceError)
  | EncodeMemory (e : EncErr)
  | EncodeTrace (e : EncErr)
  | SerializePublicInput (e : SerErr)

/-- Models the external `CairoRunner` as the record of the observations
`extract_execution_artifacts` makes on it: the relocated memory, the
optional relocated trace, and the results of its two getter calls. -/
structure CairoRunner (Mem Trace PubView Priv PubErr : Type) where
  relocated_memory : Mem
  relocated_trace : Option Trace
  get_air_public_input : Except PubErr PubView
  get_air_private_input : Priv

/-- Embeds the `ExecutionArtifacts` struct from `cairo_vm.rs`. -/
structure ExecutionArtifacts (Pub Priv : Type) where
  public_input : Pub
  private_input : Priv
  memory : List Nat
  trace : List Nat

/-- Embeds `extract_execution_artifacts` from `cairo_vm.rs`: require the
relocated trace (else `GenerateTrace TraceNotEnabled`), encode memory and
trace through fresh `MemWriter`s, convert the public input, pass the
private input through, and bundle the four artifacts. -/
def extract_execution_artifacts (RunErr : Type)
    {Mem Trace PubView Priv PubErr EncErr SerErr Pub : Type}
    (encode_memory_chunks : Mem → Except EncErr (List (List Nat)))
    (encode_trace_chunks : Trace → Except EncErr (List (List Nat)))
    (public_input_try_from : PubView → Except SerErr Pub)
    (cairo_runner : CairoRunner Mem Trace PubView Priv PubErr) :
    Except (ExecutionError RunErr PubErr EncErr SerErr) (ExecutionArtifacts Pub Priv) :=
  let memory := cairo_runner.relocated_memory
  match cairo_runner.relocated_trace with
  | none => Except.error (ExecutionError.GenerateTrace TraceError.TraceNotEnabled)
  | some trace =>
    match write_encoded encode_memory_chunks memory MemWriter.new with
    | Except.error e => Except.error (ExecutionError.EncodeMemory e)
    | Except.ok memory_writer =>
      let memory_raw := memory_writer.buf
      match write_encoded encode_trace_chunks trace MemWriter.new with
      | Except.error e => Except.error (ExecutionError.EncodeTrace e)
      | Except.ok trace_writer =>
        let trace_raw := trace_writer.buf
        match cairo_runner.get_air_public_input with
        | Except.error e => Except.error (ExecutionError.GeneratePublicInput e)
        | Except.ok cairo_vm_public_input =>
          match public_input_try_from cairo_vm_public_input with
          | Except.error e => Except.error (ExecutionError.SerializePublicInput e)
          | Except.ok public_input =>
            let private_input := cairo_runner.get_air_private_input
            Except.ok { public_input := public_input, private_input := private_input,
                        memory := memory_raw, trace := trace_raw }

/-! ## Ground lemmas about the arithmetic primitives -/

theorem two_pow_pos (k : Nat) : 0 < 2 ^ k := Nat.pos_pow_of_pos k (by omega)

theorem two_pow_lt_two_pow {a b : Nat} (h : a < b) : (2 : Nat) ^ a < 2 ^ b :=
  Nat.pow_lt_pow_right (by omega) h

theorem two_pow_le_two_pow {a b : Nat} (h : a ≤ b) : (2 : Nat) ^ a ≤ 2 ^ b :=
  Nat.pow_le_pow_right (by omega) h

theorem ilog2Aux_spec : ∀ (fuel n : Nat), 1 ≤ n → n ≤ fuel →
    2 ^ ilog2Aux fuel n ≤ n ∧ n < 2 ^ (ilog2Aux fuel n + 1) := by
  intro fuel
  induction fuel with
  | zero => intro n h1 h0; omega
  | succ fuel ih =>
    intro n h1 hle
    by_cases h2 : 2 ≤ n
    · have hdivpos : 1 ≤ n / 2 := (Nat.one_le_div_iff (by omega)).mpr h2
      have hdivlt : n / 2 < n := Nat.div_lt_self (by omega) (by omega)
      have hdivle : n / 2 ≤ fuel := by omega
      obtain ⟨hl, hr⟩ := ih (n / 2) hdivpos hdivle
      have heq : ilog2Aux (fuel + 1) n = ilog2Aux fuel (n / 2) + 1 := by
        simp [ilog2Aux, h2]
      rw [heq]
      have hmod : (n / 2) * 2 + n % 2 = n := by omega
      constructor
      · have h3 : 2 ^ (ilog2Aux fuel (n / 2) + 1) = 2 ^ ilog2Aux fuel (n / 2) * 2 := by ring
        omega
      · have h4 : 2 ^ (ilog2Aux fuel (n / 2) + 1 + 1) = 2 ^ (ilog2Aux fuel (n / 2) + 1) * 2 := by
          ring
        omega
    · have hn : n = 1 := by omega
      subst hn
      simp [ilog2Aux]

theorem ilog2_spec (n : Nat) (h : 1 ≤ n) :
    2 ^ ilog2 n ≤ n ∧ n < 2 ^ (ilog2 n + 1) :=
  ilog2Aux_spec n n h le_rfl

theorem ilog2_pow (k : Nat) : ilog2 (2 ^ k) = k := by
  obtain ⟨hl, hr⟩ := ilog2_spec (2 ^ k) (two_pow_pos k)
  by_contra hcon
  rcases Nat.lt_or_ge (ilog2 (2 ^ k)) k with hlt | hge
  · have : 2 ^ (ilog2 (2 ^ k) + 1) ≤ 2 ^ k := two_pow_le_two_pow (by omega)
    omega
  · have hgt : k < ilog2 (2 ^ k) := by omega
    have : 2 ^ k < 2 ^ ilog2 (2 ^ k) := two_pow_lt_two_pow hgt
    omega

theorem is_power_of_two_iff (x : Nat) : is_power_of_two x = true ↔ ∃ k, x = 2 ^ k := by
  unfold is_power_of_two
  constructor
  · intro h
    simp only [Bool.and_eq_true, bne_iff_ne, ne_eq, beq_iff_eq] at h
    exact ⟨ilog2 x, h.2.symm⟩
  · rintro ⟨k, rfl⟩
    simp only [Bool.and_eq_true, bne_iff_ne, ne_eq, beq_iff_eq]
    constructor
    · have := two_pow_pos k
      omega
    · rw [ilog2_pow]

theorem ceil_log2_spec (x : Nat) (h : 1 ≤ x) :
    ∃ n, ceil_log2 x = some n ∧ x ≤ 2 ^ n ∧ ∀ m, x ≤ 2 ^ m → n ≤ m := by
  have hx0 : x ≠ 0 := by omega
  obtain ⟨hfl, hfr⟩ := ilog2_spec x h
  cases hpow : is_power_of_two x with
  | true =>
    obtain ⟨k, hk⟩ := (is_power_of_two_iff x).mp hpow
    refine ⟨ilog2 x, ?_, ?_, ?_⟩
    · simp [ceil_log2, hx0, hpow]
    · subst hk; rw [ilog2_pow]
    · intro m hm
      subst hk
      rw [ilog2_pow]
      by_contra hcon
      have : 2 ^ m < 2 ^ k := two_pow_lt_two_pow (by omega)
      omega
  | false =>
    refine ⟨ilog2 x + 1, ?_, by omega, ?_⟩
    · simp [ceil_log2, hx0, hpow]
    · intro m hm
      by_contra hcon
      have hmle : m ≤ ilog2 x := by omega
      have : 2 ^ m ≤ 2 ^ ilog2 x := two_pow_le_two_pow hmle
      have hxeq : x = 2 ^ m := by omega
      have : is_power_of_two x = true := (is_power_of_two_iff x).mpr ⟨m, hxeq⟩
      rw [hpow] at this
      exact Bool.false_ne_true this

theorem ceil_log2_ge {x c b : Nat} (h : ceil_log2 x = some c) (hx : 2 ^ b < x) :
    b + 1 ≤ c := by
  have hx1 : 1 ≤ x := by have := two_pow_pos b; omega
  obtain ⟨n, hn, hle, _⟩ := ceil_log2_spec x hx1
  rw [hn] at h
  injection h with h
  subst h
  by_contra hcon
  have : 2 ^ n ≤ 2 ^ b := two_pow_le_two_pow (by omega)
  omega

theorem checkedSub_eq_some {a b d : Nat} : checkedSub a b = some d ↔ b ≤ a ∧ a - b = d := by
  unfold checkedSub
  split
  · simp
    omega
  · simp
    omega

/-! ## Characterization of compute_fri_steps -/

theorem compute_fri_steps_eq (a b m : Nat) (hm : m ≠ 0) (hb : b ≤ a + 4) :
    compute_fri_steps a b m =
      some (List.replicate ((a + 4 - b) / m) m ++
        if (a + 4 - b) % m = 0 then [] else [(a + 4 - b) % m]) := by
  have hsub : checkedSub (a + 4) b = some (a + 4 - b) :=
    checkedSub_eq_some.mpr ⟨hb, rfl⟩
  unfold compute_fri_steps
  rw [hsub]
  simp only [hm, if_false, if_neg hm]
  by_cases hr : (a + 4 - b) % m = 0
  · simp [hr]
  · simp [hr, Nat.pos_of_ne_zero hr]

theorem compute_fri_steps_inv (a b m : Nat) (l : List Nat)
    (h : compute_fri_steps a b m = some l) :
    m ≠ 0 ∧ b ≤ a + 4 ∧
      l = List.replicate ((a + 4 - b) / m) m ++
        if (a + 4 - b) % m = 0 then [] else [(a + 4 - b) % m] := by
  have hm : m ≠ 0 := by
    intro hm0
    rw [hm0] at h
    simp [compute_fri_steps] at h
  have hb : b ≤ a + 4 := by
    by_contra hcon
    have hsub : checkedSub (a + 4) b = none := by
      unfold checkedSub
      simp
      omega
    unfold compute_fri_steps at h
    rw [hsub] at h
    simp [hm] at h
  refine ⟨hm, hb, ?_⟩
  rw [compute_fri_steps_eq a b m hm hb] at h
  injection h with h
  exact h.symm

theorem compute_fri_steps_sum (a b m : Nat) (l : List Nat)
    (h : compute_fri_steps a b m = some l) : l.sum + b = a + 4 := by
  obtain ⟨hm, hb, hl⟩ := compute_fri_steps_inv a b m l h
  subst hl
  have hrep : (List.replicate ((a + 4 - b) / m) m).sum = (a + 4 - b) / m * m := by
    simp [List.sum_replicate, smul_eq_mul]
  have hdm : m * ((a + 4 - b) / m) + (a + 4 - b) % m = a + 4 - b :=
    Nat.div_add_mod (a + 4 - b) m
  have hcomm : (a + 4 - b) / m * m = m * ((a + 4 - b) / m) := Nat.mul_comm _ _
  by_cases hr : (a + 4 - b) % m = 0
  · simp [hr, hrep]
    omega
  · simp [hr, hrep, List.sum_append]
    omega

theorem compute_fri_steps_mem_two (a b : Nat) (l : List Nat)
    (h : compute_fri_steps a b 2 = some l) : ∀ x ∈ l, x = 1 ∨ x = 2 := by
  obtain ⟨hm, hb, hl⟩ := compute_fri_steps_inv a b 2 l h
  subst hl
  intro x hx
  rw [List.mem_append] at hx
  rcases hx with hx | hx
  · rw [List.mem_replicate] at hx
    right
    exact hx.2
  · by_cases hr : (a + 4 - b) % 2 = 0
    · rw [hr] at hx
      simp at hx
    · simp [hr] at hx
      left
      omega

/-! ## Shape of the two verifier policies -/

theorem default_compute_eq (n log : Nat) (h : ceil_log2 n = some log) :
    DefaultFriComputer.compute_fri_parameters n =
      (compute_fri_steps log 6 4).map fun steps =>
        { fri_step_list := steps, last_layer_degree_bound := 64,
          n_queries := 18, proof_of_work_bits := 24 } := by
  have h64 : ceil_log2 64 = some 6 := by decide
  simp [DefaultFriComputer.compute_fri_parameters, h, h64,
    DEFAULT_N_QUERIES, DEFAULT_PROOF_OF_WORK_BITS]

theorem l1_compute_eq (n log : Nat) (h : ceil_log2 n = some log) (h6 : 6 ≤ log) :
    L1VerifierFriComputer.compute_fri_parameters n =
      if (log - 6) % 2 = 1 then
        (compute_fri_steps log 5 2).map fun steps =>
          { fri_step_list := 0 :: steps, last_layer_degree_bound := 32,
            n_queries := 18, proof_of_work_bits := 24 }
      else
        (compute_fri_steps log 6 2).map fun steps =>
          { fri_step_list := 0 :: steps, last_layer_degree_bound := 64,
            n_queries := 18, proof_of_work_bits := 24 } := by
  have h64 : ceil_log2 64 = some 6 := by decide
  have hsub : checkedSub log 6 = some (log - 6) := checkedSub_eq_some.mpr ⟨h6, rfl⟩
  rcases Nat.mod_two_eq_zero_or_one (log - 6) with h0 | h1
  · simp [L1VerifierFriComputer.compute_fri_parameters, h, h64, hsub, h0,
      DEFAULT_LAST_LAYER_DEGREE_BOUND, DEFAULT_N_QUERIES, DEFAULT_PROOF_OF_WORK_BITS]
  · simp [L1VerifierFriComputer.compute_fri_parameters, h, h64, hsub, h1,
      DEFAULT_LAST_LAYER_DEGREE_BOUND, DEFAULT_N_QUERIES, DEFAULT_PROOF_OF_WORK_BITS]

theorem default_compute_inv (n : Nat) (p : FriParameters)
    (h : DefaultFriComputer.compute_fri_parameters n = some p) :
    ∃ log steps, ceil_log2 n = some log ∧ compute_fri_steps log 6 4 = some steps ∧
      p = ⟨steps, 64, 18, 24⟩ := by
  cases hc : ceil_log2 n with
  | none =>
    unfold DefaultFriComputer.compute_fri_parameters at h
    rw [hc] at h
    simp at h
  | some log =>
    rw [default_compute_eq n log hc] at h
    rw [Option.map_eq_some'] at h
    obtain ⟨steps, hs, hp⟩ := h
    exact ⟨log, steps, rfl, hs, hp.symm⟩

theorem l1_compute_inv (n : Nat) (p : FriParameters)
    (h : L1VerifierFriComputer.compute_fri_parameters n = some p) :
    ∃ log, ceil_log2 n = some log ∧ 6 ≤ log ∧
      (((log - 6) % 2 = 1 ∧ ∃ steps, compute_fri_steps log 5 2 = some steps ∧
          p = ⟨0 :: steps, 32, 18, 24⟩) ∨
       ((log - 6) % 2 = 0 ∧ ∃ steps, compute_fri_steps log 6 2 = some steps ∧
          p = ⟨0 :: steps, 64, 18, 24⟩)) := by
  cases hc : ceil_log2 n with
  | none =>
    unfold L1VerifierFriComputer.compute_fri_parameters at h
    rw [hc] at h
    simp at h
  | some log =>
    have h64 : ceil_log2 DEFAULT_LAST_LAYER_DEGREE_BOUND = some 6 := by decide
    have h6 : 6 ≤ log := by
      by_contra hcon
      have hcs : checkedSub log 6 = none := by
        unfold checkedSub
        simp
        omega
      unfold L1VerifierFriComputer.compute_fri_parameters at h
      rw [hc, h64] at h
      simp only [Option.some_bind] at h
      rw [hcs] at h
      simp at h
    refine ⟨log, rfl, h6, ?_⟩
    rw [l1_compute_eq n log hc h6] at h
    rcases Nat.mod_two_eq_zero_or_one (log - 6) with h0 | h1
    · right
      rw [h0, if_neg (by omega : ¬(0 : Nat) = 1)] at h
      rw [Option.map_eq_some'] at h
      obtain ⟨steps, hs, hp⟩ := h
      exact ⟨h0, steps, hs, hp.symm⟩
    · left
      rw [h1, if_pos (rfl : (1 : Nat) = 1)] at h
      rw [Option.map_eq_some'] at h
      obtain ⟨steps, hs, hp⟩ := h
      exact ⟨h1, steps, hs, hp.symm⟩

theorem generate_eq_stone (n : Nat) :
    generate_prover_parameters n Verifier.Stone =
      (DefaultFriComputer.compute_fri_parameters n).map fun fp =>
        ⟨"PrimeField0", ⟨fp, 4⟩, false⟩ := rfl

theorem generate_eq_l1 (n : Nat) :
    generate_prover_parameters n Verifier.L1 =
      (L1VerifierFriComputer.compute_fri_parameters n).map fun fp =>
        ⟨"PrimeField0", ⟨fp, 4⟩, false⟩ := rfl

theorem default_compute_total (n : Nat) (h : 3 ≤ n) :
    ∃ p, DefaultFriComputer.compute_fri_parameters n = some p := by
  obtain ⟨c, hc, hle, hmin⟩ := ceil_log2_spec n (by omega)
  have h2 : 2 ≤ c := by
    have h21 : (2 : Nat) ^ 1 < n := by norm_num; omega
    exact ceil_log2_ge hc h21
  rw [default_compute_eq n c hc]
  rw [compute_fri_steps_eq c 6 4 (by omega) (by omega)]
  exact ⟨_, rfl⟩

theorem l1_compute_total (n : Nat) (h : 33 ≤ n) :
    ∃ p, L1VerifierFriComputer.compute_fri_parameters n = some p := by
  obtain ⟨c, hc, hle, hmin⟩ := ceil_log2_spec n (by omega)
  have h6 : 6 ≤ c := by
    have h32 : (2 : Nat) ^ 5 < n := by norm_num; omega
    have := ceil_log2_ge hc h32
    omega
  rw [l1_compute_eq n c hc h6]
  by_cases hp : (c - 6) % 2 = 1
  · rw [if_pos hp, compute_fri_steps_eq c 5 2 (by omega) (by omega)]
    exact ⟨_, rfl⟩
  · rw [if_neg hp, compute_fri_steps_eq c 6 2 (by omega) (by omega)]
    exact ⟨_, rfl⟩

/-! ## Claim theorems -/

/-- C1: For the L1 verifier policy, `compute_fri_parameters` starts from
`last_layer_degree_bound = 64` and halves it once (to `32`, decrementing
its log from `6` to `5`) exactly when `ceil_log2 step_count - ceil_log2 64`
is odd, then returns a `fri_step_list` equal to a mandatory leading `0`
followed by the steps computed by `compute_fri_steps` with max step `2`;
in particular `step_count = 32768` yields `[0,2,2,2,2,2,2,2]` with bound
`32`, `524288` yields `[0,2,2,2,2,2,2,2,2,2]` with bound `32`, and `768`
yields `[0,2,2,2,2]` with bound `64`. -/
theorem C1_l1_policy_shape :
    (∀ n log, ceil_log2 n = some log → 6 ≤ log →
      L1VerifierFriComputer.compute_fri_parameters n =
        if (log - 6) % 2 = 1 then
          (compute_fri_steps log 5 2).map fun steps =>
            { fri_step_list := 0 :: steps, last_layer_degree_bound := 32,
              n_queries := 18, proof_of_work_bits := 24 }
        else
          (compute_fri_steps log 6 2).map fun steps =>
            { fri_step_list := 0 :: steps, last_layer_degree_bound := 64,
              n_queries := 18, proof_of_work_bits := 24 }) ∧
    L1VerifierFriComputer.compute_fri_parameters 32768 =
      some ⟨[0, 2, 2, 2, 2, 2, 2, 2], 32, 18, 24⟩ ∧
    L1VerifierFriComputer.compute_fri_parameters 524288 =
      some ⟨[0, 2, 2, 2, 2, 2, 2, 2, 2, 2], 32, 18, 24⟩ ∧
    L1VerifierFriComputer.compute_fri_parameters 768 =
      some ⟨[0, 2, 2, 2, 2], 64, 18, 24⟩ :=
  ⟨l1_compute_eq, by decide, by decide, by decide⟩

/-- Witness for C1: at `step_count = 100` (`ceil_log2 100 = 7`, odd
difference) the general clause evaluates to `[0,2,2,2]` with bound `32`. -/
theorem C1_l1_policy_shape_witness :
    L1VerifierFriComputer.compute_fri_parameters 100 =
      some ⟨[0, 2, 2, 2], 32, 18, 24⟩ :=
  (C1_l1_policy_shape.1 100 7 (by decide) (by decide)).trans (by decide)

/-- C2: For the default (Stone) verifier policy, `compute_fri_parameters`
always returns `last_layer_degree_bound = 64` and a step list equal to
`compute_fri_steps (ceil_log2 step_count) (ceil_log2 64) 4` (with
`ceil_log2 64 = 6`), faults included; in particular `step_count = 32768`
yields `[4,4,4,1]`, `524288` yields `[4,4,4,4,1]`, and `768` yields
`[4,4]`, each with `last_layer_degree_bound = 64`. -/
theorem C2_default_policy_shape :
    (∀ n, DefaultFriComputer.compute_fri_parameters n =
      (ceil_log2 n).bind fun nb_steps_log =>
        (compute_fri_steps nb_steps_log 6 4).map fun steps =>
          { fri_step_list := steps, last_layer_degree_bound := 64,
            n_queries := 18, proof_of_work_bits := 24 }) ∧
    ceil_log2 64 = some 6 ∧
    DefaultFriComputer.compute_fri_parameters 32768 =
      some ⟨[4, 4, 4, 1], 64, 18, 24⟩ ∧
    DefaultFriComputer.compute_fri_parameters 524288 =
      some ⟨[4, 4, 4, 4, 1], 64, 18, 24⟩ ∧
    DefaultFriComputer.compute_fri_parameters 768 =
      some ⟨[4, 4], 64, 18, 24⟩ := by
  refine ⟨?_, by decide, by decide, by decide, by decide⟩
  intro n
  cases hc : ceil_log2 n with
  | none =>
    unfold DefaultFriComputer.compute_fri_parameters
    rw [hc]
    rfl
  | some log =>
    rw [default_compute_eq n log hc]
    rfl

/-- C3 counterexample: the claim asserts totality for every
`step_count ≥ 1`, but the `u32` subtractions underflow (a panic in debug
builds) already at `step_count = 1` for the Stone policy and at
`step_count = 32` for the L1 policy. -/
theorem C3_totality_counterexample :
    generate_prover_parameters 1 Verifier.Stone = none ∧
    generate_prover_parameters 32 Verifier.L1 = none := by decide

/-- C3 (amended): `generate_prover_parameters` is total for every
`step_count ≥ 33` for every verifier kind, and already for every
`step_count ≥ 3` for the Stone policy; smaller positive step counts make
the `u32` subtractions in the log-budget computation underflow and must be
rejected by the caller, as must `step_count = 0`. -/
theorem C3_totality_amended :
    (∀ n v, 33 ≤ n → ∃ p, generate_prover_parameters n v = some p) ∧
    (∀ n, 3 ≤ n → ∃ p, generate_prover_parameters n Verifier.Stone = some p) := by
  constructor
  · intro n v h
    cases v with
    | L1 =>
      obtain ⟨p, hp⟩ := l1_compute_total n h
      exact ⟨_, by rw [generate_eq_l1, hp]; rfl⟩
    | Stone =>
      obtain ⟨p, hp⟩ := default_compute_total n (by omega)
      exact ⟨_, by rw [generate_eq_stone, hp]; rfl⟩
  · intro n h
    obtain ⟨p, hp⟩ := default_compute_total n h
    exact ⟨_, by rw [generate_eq_stone, hp]; rfl⟩

/-- Witness for C3 (amended): totality at `step_count = 40` (L1) and
`step_count = 3` (Stone). -/
theorem C3_totality_amended_witness :
    (∃ p, generate_prover_parameters 40 Verifier.L1 = some p) ∧
    (∃ p, generate_prover_parameters 3 Verifier.Stone = some p) :=
  ⟨C3_totality_amended.1 40 Verifier.L1 (by decide),
   C3_totality_amended.2 3 (by decide)⟩

/-- C4 counterexample: with `total_log = 0`, `last_layer_log = 10`,
`max_step = 1` the claim predicts a returned list, but the `u32`
subtraction `total_log + 4 - last_layer_log` underflows and the function
faults (modelled by `none`). -/
theorem C4_compute_fri_steps_counterexample :
    compute_fri_steps 0 10 1 = none := by decide

/-- C4 (amended): for every `total_log`, `last_layer_log` and
`max_step ≥ 1` such that additionally `last_layer_log ≤ total_log + 4`
(otherwise the `u32` subtraction underflows and the function faults),
`compute_fri_steps` returns `floor(sum / max_step)` entries equal to
`max_step` followed by one trailing entry `sum % max_step` exactly when
that remainder is non-zero, where `sum = total_log + 4 - last_layer_log`. -/
theorem C4_compute_fri_steps_amended :
    ∀ total_log last_layer_log max_step, 1 ≤ max_step →
      last_layer_log ≤ total_log + 4 →
      compute_fri_steps total_log last_layer_log max_step =
        some (List.replicate ((total_log + 4 - last_layer_log) / max_step) max_step ++
          if (total_log + 4 - last_layer_log) % max_step = 0 then []
          else [(total_log + 4 - last_layer_log) % max_step]) :=
  fun a b m hm hb => compute_fri_steps_eq a b m (by omega) hb

/-- Witness for C4 (amended): `compute_fri_steps 7 6 4 = some [4, 1]`. -/
theorem C4_compute_fri_steps_amended_witness :
    compute_fri_steps 7 6 4 = some [4, 1] :=
  (C4_compute_fri_steps_amended 7 6 4 (by decide) (by decide)).trans (by decide)

/-- C5: For any step count with a defined `ceil_log2` and either policy,
the sum of the returned `fri_step_list` (the L1 leading zero contributes
nothing) plus `ceil_log2` of the returned `last_layer_degree_bound`
reproduces `ceil_log2 step_count + 4` exactly. -/
theorem C5_budget_identity :
    ∀ (n : Nat) (v : Verifier) (pp : ProverParameters) (log llog : Nat),
      ceil_log2 n = some log →
      generate_prover_parameters n v = some pp →
      ceil_log2 pp.stark.fri.last_layer_degree_bound = some llog →
      pp.stark.fri.fri_step_list.sum + llog = log + 4 := by
  intro n v pp log llog hlog hgen hllog
  cases v with
  | Stone =>
    rw [generate_eq_stone, Option.map_eq_some'] at hgen
    obtain ⟨fp, hfp, hpp⟩ := hgen
    obtain ⟨log', steps, hlog', hsteps, hfpeq⟩ := default_compute_inv n fp hfp
    rw [hlog'] at hlog
    injection hlog with he
    subst he
    subst hfpeq
    rw [← hpp] at hllog ⊢
    dsimp only at hllog ⊢
    have h64 : ceil_log2 (64 : Nat) = some 6 := by decide
    rw [h64] at hllog
    injection hllog with he2
    subst he2
    have hsum := compute_fri_steps_sum log' 6 4 steps hsteps
    omega
  | L1 =>
    rw [generate_eq_l1, Option.map_eq_some'] at hgen
    obtain ⟨fp, hfp, hpp⟩ := hgen
    obtain ⟨log', hlog', h6, hcase⟩ := l1_compute_inv n fp hfp
    rw [hlog'] at hlog
    injection hlog with he
    subst he
    rcases hcase with ⟨hpar, steps, hsteps, hfpeq⟩ | ⟨hpar, steps, hsteps, hfpeq⟩
    · subst hfpeq
      rw [← hpp] at hllog ⊢
      dsimp only at hllog ⊢
      have h32 : ceil_log2 (32 : Nat) = some 5 := by decide
      rw [h32] at hllog
      injection hllog with he2
      subst he2
      have hsum := compute_fri_steps_sum log' 5 2 steps hsteps
      simp only [List.sum_cons, Nat.zero_add]
      omega
    · subst hfpeq
      rw [← hpp] at hllog ⊢
      dsimp only at hllog ⊢
      have h64 : ceil_log2 (64 : Nat) = some 6 := by decide
      rw [h64] at hllog
      injection hllog with he2
      subst he2
      have hsum := compute_fri_steps_sum log' 6 2 steps hsteps
      simp only [List.sum_cons, Nat.zero_add]
      omega

/-- Witness for C5: at `step_count = 768` under the Stone policy,
`[4,4].sum + ceil_log2 64 = ceil_log2 768 + 4`. -/
theorem C5_budget_identity_witness :
    generate_prover_parameters 768 Verifier.Stone =
      some ⟨"PrimeField0", ⟨⟨[4, 4], 64, 18, 24⟩, 4⟩, false⟩ ∧
    ([4, 4] : List Nat).sum + 6 = 10 + 4 :=
  ⟨by decide,
   C5_budget_identity 768 Verifier.Stone
     ⟨"PrimeField0", ⟨⟨[4, 4], 64, 18, 24⟩, 4⟩, false⟩ 10 6
     (by decide) (by decide) (by decide)⟩

/-- C6: whenever either policy returns `FriParameters`, the
`last_layer_degree_bound` is a power of two, and for the L1 policy the
step list starts with exactly `0` and every other entry is in `{1, 2}`. -/
theorem C6_invariants :
    (∀ n p, DefaultFriComputer.compute_fri_parameters n = some p →
      ∃ k, p.last_layer_degree_bound = 2 ^ k) ∧
    (∀ n p, L1VerifierFriComputer.compute_fri_parameters n = some p →
      (∃ k, p.last_layer_degree_bound = 2 ^ k) ∧
      ∃ rest, p.fri_step_list = 0 :: rest ∧ ∀ x ∈ rest, x = 1 ∨ x = 2) := by
  constructor
  · intro n p h
    obtain ⟨log, steps, hlog, hsteps, hp⟩ := default_compute_inv n p h
    subst hp
    exact ⟨6, by norm_num⟩
  · intro n p h
    obtain ⟨log, hlog, h6, hcase⟩ := l1_compute_inv n p h
    rcases hcase with ⟨hpar, steps, hsteps, hp⟩ | ⟨hpar, steps, hsteps, hp⟩
    · subst hp
      exact ⟨⟨5, by norm_num⟩, steps, rfl, compute_fri_steps_mem_two log 5 steps hsteps⟩
    · subst hp
      exact ⟨⟨6, by norm_num⟩, steps, rfl, compute_fri_steps_mem_two log 6 steps hsteps⟩

/-- Witness for C6: the invariants at the L1 output for `step_count = 768`. -/
theorem C6_invariants_witness :
    (∃ k, (64 : Nat) = 2 ^ k) ∧
    ∃ rest, ([0, 2, 2, 2, 2] : List Nat) = 0 :: rest ∧
      ∀ x ∈ rest, x = 1 ∨ x = 2 :=
  C6_invariants.2 768 ⟨[0, 2, 2, 2, 2], 64, 18, 24⟩ (by decide)

/-- C7: for every `x ≥ 1`, `ilog2` is the floor of log2, `is_power_of_two`
recognizes exactly the powers of two, and `ceil_log2 x` returns the
smallest `n` with `2 ^ n ≥ x`; in particular `ceil_log2` maps `1, 2, 32,
1000, 524288` to `0, 1, 5, 10, 19`. -/
theorem C7_ceil_log2_spec :
    (∀ x, 1 ≤ x → 2 ^ ilog2 x ≤ x ∧ x < 2 ^ (ilog2 x + 1)) ∧
    (∀ x, is_power_of_two x = true ↔ ∃ k, x = 2 ^ k) ∧
    (∀ x, 1 ≤ x → ∃ n, ceil_log2 x = some n ∧ x ≤ 2 ^ n ∧ ∀ m, x ≤ 2 ^ m → n ≤ m) ∧
    ceil_log2 1 = some 0 ∧ ceil_log2 2 = some 1 ∧ ceil_log2 32 = some 5 ∧
    ceil_log2 1000 = some 10 ∧ ceil_log2 524288 = some 19 :=
  ⟨ilog2_spec, is_power_of_two_iff, ceil_log2_spec,
   by decide, by decide, by decide, by decide, by decide⟩

/-- Witness for C7: the minimality clause evaluated at `x = 1000`. -/
theorem C7_ceil_log2_spec_witness :
    ∃ n, ceil_log2 1000 = some n ∧ 1000 ≤ 2 ^ n ∧ ∀ m, 1000 ≤ 2 ^ m → n ≤ m :=
  C7_ceil_log2_spec.2.2.1 1000 (by decide)

/-! ## Lemmas about task collection -/

theorem collectResults_append {ε α : Type} (l1 l2 : List (Except ε α)) :
    collectResults (l1 ++ l2) =
      match collectResults l1 with
      | Except.error e => Except.error e
      | Except.ok v1 =>
        match collectResults l2 with
        | Except.error e => Except.error e
        | Except.ok v2 => Except.ok (v1 ++ v2) := by
  induction l1 with
  | nil =>
    simp only [List.nil_append, collectResults]
    cases collectResults l2 with
    | error e => rfl
    | ok v2 => simp
  | cons x rest ih =>
    cases x with
    | error e => rfl
    | ok v =>
      rw [List.cons_append]
      simp only [collectResults]
      rw [ih]
      cases collectResults rest with
      | error e => rfl
      | ok vs =>
        cases collectResults l2 with
        | error e => rfl
        | ok v2 => rfl

theorem mapM_ok_of_forall {α β ε : Type} (f : α → Except ε β) :
    ∀ l : List α, (∀ a ∈ l, ∃ v, f a = Except.ok v) →
      ∃ vs, List.mapM f l = Except.ok vs := by
  intro l
  induction l with
  | nil => intro _; exact ⟨[], rfl⟩
  | cons a rest ih =>
    intro h
    obtain ⟨v, hv⟩ := h a (List.mem_cons_self a rest)
    obtain ⟨vs, hvs⟩ := ih fun x hx => h x (List.mem_cons_of_mem a hx)
    refine ⟨v :: vs, ?_⟩
    rw [List.mapM_cons, hv, hvs]
    rfl

theorem collect_map_ok {α β γ ε ε' : Type} (f : α → Except ε β) (g : β → γ)
    (wrapErr : ε → ε') :
    ∀ (l : List α) (vs : List β), List.mapM f l = Except.ok vs →
      collectResults (l.map fun a =>
        match f a with
        | Except.ok v => Except.ok (g v)
        | Except.error e => Except.error (wrapErr e)) = Except.ok (vs.map g) := by
  intro l
  induction l with
  | nil =>
    intro vs h
    simp only [List.mapM_nil] at h
    injection h with h
    subst h
    rfl
  | cons a rest ih =>
    intro vs h
    rw [List.mapM_cons] at h
    cases hfa : f a with
    | error e =>
      rw [hfa] at h
      simp [Bind.bind, Except.bind] at h
    | ok b =>
      rw [hfa] at h
      cases hml : List.mapM f rest with
      | error e =>
        rw [hml] at h
        simp [Bind.bind, Except.bind, Pure.pure, Except.pure] at h
      | ok bs =>
        rw [hml] at h
        simp only [Bind.bind, Except.bind, Pure.pure, Except.pure] at h
        injection h with h
        subst h
        simp only [List.map_cons, collectResults, hfa]
        rw [ih bs hml]

theorem collect_map_first_error {α β γ ε ε' : Type} (f : α → Except ε β) (g : β → γ)
    (wrapErr : ε → ε') :
    ∀ (pre : List α) (b : α) (post : List α) (e : ε),
      (∀ a ∈ pre, ∃ v, f a = Except.ok v) → f b = Except.error e →
      collectResults ((pre ++ b :: post).map fun a =>
        match f a with
        | Except.ok v => Except.ok (g v)
        | Except.error e => Except.error (wrapErr e)) = Except.error (wrapErr e) := by
  intro pre
  induction pre with
  | nil =>
    intro b post e _ hb
    simp only [List.nil_append, List.map_cons, collectResults, hb]
  | cons a pre ih =>
    intro b post e hok hb
    obtain ⟨v, hv⟩ := hok a (List.mem_cons_self a pre)
    have hrest := ih b post e (fun x hx => hok x (List.mem_cons_of_mem a hx)) hb
    rw [List.cons_append, List.map_cons]
    simp only [collectResults, hv]
    rw [hrest]

/-! ## Lemmas about the in-memory writer -/

theorem writeAll_ok {EncErr : Type} (w : MemWriter) (chunks : List (List Nat)) :
    @writeAll EncErr w chunks = Except.ok ⟨w.buf ++ chunks.flatten⟩ := by
  induction chunks generalizing w with
  | nil => simp [writeAll]
  | cons c rest ih =>
    simp only [writeAll, MemWriter.write, ih]
    simp [List.append_assoc]

/-! ## Claim theorems for the VM wrapper -/

/-- C8: `make_bootloader_tasks` returns, on success, one `TaskSpec` per
input with all program tasks first in input order followed by all PIE
tasks in input order; the first failing program buffer aborts the whole
assembly with a `Program` error wrapping that buffer's parse error, a
failing PIE buffer (after all programs parsed) aborts with a `Pie` error,
and no partial task list is ever returned. -/
theorem C8_make_bootloader_tasks :
    ∀ (Bytes Prog CairoPie ProgErr PieErr : Type)
      (program_from_bytes : Bytes → Except ProgErr Prog)
      (pie_from_bytes : Bytes → Except PieErr CairoPie),
      (∀ (programs pies : List Bytes) (ps : List Prog) (cs : List CairoPie),
        List.mapM program_from_bytes programs = Except.ok ps →
        List.mapM pie_from_bytes pies = Except.ok cs →
        make_bootloader_tasks program_from_bytes pie_from_bytes programs pies =
          Except.ok (ps.map (fun p => { task := Task.Program p }) ++
            cs.map fun c => { task := Task.Pie c })) ∧
      (∀ (pre : List Bytes) (b : Bytes) (post pies : List Bytes) (e : ProgErr),
        (∀ a ∈ pre, ∃ p, program_from_bytes a = Except.ok p) →
        program_from_bytes b = Except.error e →
        make_bootloader_tasks program_from_bytes pie_from_bytes (pre ++ b :: post) pies =
          Except.error (BootloaderTaskError.Program e)) ∧
      (∀ (programs pre : List Bytes) (b : Bytes) (post : List Bytes) (e : PieErr),
        (∀ a ∈ programs, ∃ p, program_from_bytes a = Except.ok p) →
        (∀ a ∈ pre, ∃ c, pie_from_bytes a = Except.ok c) →
        pie_from_bytes b = Except.error e →
        make_bootloader_tasks program_from_bytes pie_from_bytes programs (pre ++ b :: post) =
          Except.error (BootloaderTaskError.Pie e)) := by
  intro Bytes Prog CairoPie ProgErr PieErr pfb cfb
  refine ⟨?_, ?_, ?_⟩
  · intro programs pies ps cs hp hc
    unfold make_bootloader_tasks
    rw [collectResults_append,
      collect_map_ok pfb (fun p => TaskSpec.mk (Task.Program p))
        BootloaderTaskError.Program programs ps hp,
      collect_map_ok cfb (fun c => TaskSpec.mk (Task.Pie c))
        BootloaderTaskError.Pie pies cs hc]
  · intro pre b post pies e hok hb
    unfold make_bootloader_tasks
    rw [collectResults_append,
      collect_map_first_error pfb (fun p => TaskSpec.mk (Task.Program p))
        BootloaderTaskError.Program pre b post e hok hb]
  · intro programs pre b post e hprog hok hb
    obtain ⟨ps, hps⟩ := mapM_ok_of_forall pfb programs hprog
    unfold make_bootloader_tasks
    rw [collectResults_append,
      collect_map_ok pfb (fun p => TaskSpec.mk (Task.Program p))
        BootloaderTaskError.Program programs ps hps,
      collect_map_first_error cfb (fun c => TaskSpec.mk (Task.Pie c))
        BootloaderTaskError.Pie pre b post e hok hb]

/-- Witness for C8: two program buffers and one PIE buffer assemble into
the ordered task list, programs first. -/
theorem C8_make_bootloader_tasks_witness :
    make_bootloader_tasks (fun b : Nat => (Except.ok b : Except Nat Nat))
        (fun b : Nat => (Except.ok (b + 1) : Except Nat Nat)) [1, 2] [5] =
      Except.ok (([1, 2].map fun p => { task := Task.Program p }) ++
        [6].map fun c => { task := Task.Pie c }) :=
  (C8_make_bootloader_tasks Nat Nat Nat Nat Nat
      (fun b => Except.ok b) (fun b => Except.ok (b + 1))).1
    [1, 2] [5] [1, 2] [6] rfl rfl

/-- C9: `extract_execution_artifacts` fails with
`GenerateTrace TraceNotEnabled` whenever the runner carries no relocated
trace, and in that case never returns artifacts — in particular a missing
trace is never reported as an empty trace. -/
theorem C9_extract_trace_not_enabled :
    ∀ (RunErr Mem Trace PubView Priv PubErr EncErr SerErr Pub : Type)
      (encode_memory_chunks : Mem → Except EncErr (List (List Nat)))
      (encode_trace_chunks : Trace → Except EncErr (List (List Nat)))
      (public_input_try_from : PubView → Except SerErr Pub)
      (cairo_runner : CairoRunner Mem Trace PubView Priv PubErr),
      cairo_runner.relocated_trace = none →
      extract_execution_artifacts RunErr encode_memory_chunks encode_trace_chunks
          public_input_try_from cairo_runner =
        Except.error (ExecutionError.GenerateTrace TraceError.TraceNotEnabled) ∧
      ∀ arts : ExecutionArtifacts Pub Priv,
        extract_execution_artifacts RunErr encode_memory_chunks encode_trace_chunks
          public_input_try_from cairo_runner ≠ Except.ok arts := by
  intro RunErr Mem Trace PubView Priv PubErr EncErr SerErr Pub emc etc pitf runner h
  have heq : extract_execution_artifacts RunErr emc etc pitf runner =
      Except.error (ExecutionError.GenerateTrace TraceError.TraceNotEnabled) := by
    unfold extract_execution_artifacts
    rw [h]
  refine ⟨heq, fun arts hok => ?_⟩
  rw [heq] at hok
  exact Except.noConfusion hok

/-- Witness for C9: a concrete runner with no relocated trace yields the
trace-not-enabled error. -/
theorem C9_extract_trace_not_enabled_witness :
    extract_execution_artifacts Unit
        (fun _ : Unit => (Except.ok [] : Except Unit (List (List Nat))))
        (fun _ : Unit => (Except.ok [] : Except Unit (List (List Nat))))
        (fun _ : Unit => (Except.ok 0 : Except Unit Nat))
        ⟨(), (none : Option Unit), (Except.ok () : Except Unit Unit), (0 : Nat)⟩ =
      Except.error (ExecutionError.GenerateTrace TraceError.TraceNotEnabled) :=
  (C9_extract_trace_not_enabled Unit Unit Unit Unit Nat Unit Unit Unit Nat
      (fun _ => Except.ok []) (fun _ => Except.ok []) (fun _ => Except.ok 0)
      ⟨(), none, Except.ok (), 0⟩ rfl).1

/-- C10: `MemWriter::write` never fails and appends exactly the given
bytes in order; consequently driving any sequence of writes against a
`MemWriter` succeeds with the concatenation, and an encoding step built on
it can only fail inside the encoding primitive itself. -/
theorem C10_memwriter_never_fails :
    (∀ (EncErr : Type) (w : MemWriter) (bytes : List Nat),
      @MemWriter.write EncErr w bytes = Except.ok ⟨w.buf ++ bytes⟩) ∧
    (∀ (EncErr : Type) (w : MemWriter) (chunks : List (List Nat)),
      @writeAll EncErr w chunks = Except.ok ⟨w.buf ++ chunks.flatten⟩) ∧
    (∀ (EncErr α : Type) (emit : α → Except EncErr (List (List Nat))) (x : α)
      (w : MemWriter),
      write_encoded emit x w =
        (emit x).map fun chunks => ⟨w.buf ++ chunks.flatten⟩) := by
  refine ⟨fun E w bytes => rfl, fun E w chunks => writeAll_ok w chunks, ?_⟩
  intro E α emit x w
  cases he : emit x with
  | error e => simp [write_encoded, he, Except.map]
  | ok chunks => simp [write_encoded, he, Except.map, writeAll_ok]

end StoneSdk
